import Mathlib

/-!
Shallow embedding of the study-plan allocation engine of study-sync-pro
(src/src/contexts/AppContext.tsx and related pages), together with proofs
of the specification's claims about it.

Conventions of the embedding:
* calendar dates are integers (day indices; `parseISO`/`format` are injective
  on calendar days, and all date comparisons in the source are day-level);
* JS numbers are rationals (the source only adds, multiplies, divides,
  floors, ceils and rounds; no NaN/Infinity path is exercised under the
  validity hypotheses `size ≥ 1`, `rate > 0` stated by the spec);
* exam identifiers are naturals (the source uses opaque strings);
* in-place mutation of the shared `newStudyDays` array is modelled by
  index-based functional update (`List.set`) — the source pushes to day
  objects aliased by `availableDays` / `studyDaysAvailable` / `reviewDays`,
  which are positions of the one array.
-/

namespace StudySync

/-- One exam's workload entry on one day (TS `StudyDayExam`). -/
structure StudyDayExam where
  examId : ℕ
  chapters : List ℤ
  plannedHours : ℚ
  actualHours : ℚ
  completed : Bool
  isReview : Bool
deriving DecidableEq, Repr, Inhabited

/-- One calendar day's capacity and assignments (TS `StudyDay`). -/
structure StudyDay where
  date : ℤ
  available : Bool
  availableHours : ℚ
  exams : List StudyDayExam
deriving DecidableEq, Repr, Inhabited

/-- An exam record (TS `Exam`), restricted to the engine-relevant fields. -/
structure Exam where
  id : ℕ
  date : ℤ
  usePages : Bool
  chapters : ℕ
  pages : Option ℕ
  timePerUnit : ℚ
  customReviewDays : Option ℕ
deriving DecidableEq, Repr, Inhabited

/-- Engine-relevant settings (TS `Settings`). -/
structure Settings where
  defaultDailyHours : ℚ
  reviewDays : ℕ
deriving DecidableEq, Repr, Inhabited

/-- `Math.round(x * 10) / 10`: round to one decimal, halves toward `+∞`. -/
def round1 (q : ℚ) : ℚ := (⌊q * 10 + 1 / 2⌋ : ℚ) / 10

/-- `exam.usePages ? (exam.pages || 0) : exam.chapters` — total unit count. -/
def studyUnitsOf (e : Exam) : ℕ := if e.usePages then e.pages.getD 0 else e.chapters

/-- Hours per unit: `1 / (exam.timePerUnit || 20)` in pages mode (the stored
rate is pages per hour), `exam.timePerUnit || 1` in chapters mode. -/
def timePerUnitOf (e : Exam) : ℚ :=
  if e.usePages then 1 / (if e.timePerUnit = 0 then 20 else e.timePerUnit)
  else (if e.timePerUnit = 0 then 1 else e.timePerUnit)

/-- `exams.reduce((maxDate, exam) => isAfter(examDate, maxDate) ? examDate : maxDate,
parseISO(exams[0].date))`. -/
def furthestExamDate (e0 : Exam) (exams : List Exam) : ℤ :=
  exams.foldl (fun m ex => if m < ex.date then ex.date else m) e0.date

/-- One day of the rebuilt calendar: carry forward `available` / `availableHours`
from an existing day at the same date, else default; `exams` starts empty. -/
def calendarDay (oldDays : List StudyDay) (st : Settings) (d : ℤ) : StudyDay :=
  match oldDays.find? (fun day => decide (day.date = d)) with
  | some existing =>
      { date := d, available := existing.available,
        availableHours := existing.availableHours, exams := [] }
  | none =>
      { date := d, available := true,
        availableHours := st.defaultDailyHours, exams := [] }

/-- `for (let i = 0; i <= daysToGenerate; i++) { ... push(day at today + i) }`. -/
def mkCalendar (oldDays : List StudyDay) (st : Settings) (today daysToGenerate : ℤ) :
    List StudyDay :=
  (List.range (daysToGenerate + 1).toNat).map
    (fun (i : ℕ) => calendarDay oldDays st (today + (i : ℤ)))

/-- Completed assignments of the prior plan, tagged with their day's date. -/
def completedSessionsOf (oldDays : List StudyDay) : List (ℤ × StudyDayExam) :=
  (oldDays.map (fun day =>
    (day.exams.filter (fun e => e.completed)).map (fun e => (day.date, e)))).flatten

/-- Push one preserved completed assignment back onto the rebuilt calendar
(`newStudyDays[dayIndex].exams.push(exam)` guarded by `dayIndex >= 0`). -/
def pushAssignment (days : List StudyDay) (d : ℤ) (a : StudyDayExam) : List StudyDay :=
  match days.findIdx? (fun day => decide (day.date = d)) with
  | some i =>
      match days[i]? with
      | some day => days.set i { day with exams := day.exams ++ [a] }
      | none => days
  | none => days

/-- The day filter of `generateStudyPlan` (AppContext.tsx lines 494-503),
with the source's `&&`/`||` precedence kept as written:
`(date < examDate && available && !keep) || (keep && no completed entry)`. -/
def keepFilter (keep : Bool) (examDate examDayIndex : ℤ) (i : ℕ) (day : StudyDay) : Bool :=
  decide ((i : ℤ) ≠ examDayIndex) &&
    ((decide (day.date < examDate) && day.available && !keep) ||
      (keep && !(day.exams.any (fun e => e.completed))))

/-- Positions of the days kept by the selection filter, in day order
(the source's `newStudyDays.filter((day, index) => ...)`). -/
def selectedIdxs (keep : Bool) (examDate examDayIndex : ℤ) (days : List StudyDay) : List ℕ :=
  (List.range days.length).filter (fun i =>
    match days[i]? with
    | some day => keepFilter keep examDate examDayIndex i day
    | none => false)

/-- `Math.ceil(totalStudyHoursNeeded / (defaultDailyHours * 0.8))`. -/
def optimalStudyDaysNeeded (units : ℕ) (tpu dailyHours : ℚ) : ℤ :=
  ⌈(units : ℚ) * tpu / (dailyHours * (8 / 10))⌉

/-- The pruning start index (lines 527-537): skip
`floor((count − optimal) * 0.7)` early days — dampened by `0.4` unless the
exam is small and far away — when `count > optimal * 1.5`. -/
def pruneStartIndex (selectedCount : ℕ) (optimal : ℤ) (isSmall isFar : Bool) : ℕ :=
  if (optimal : ℚ) * (3 / 2) < (selectedCount : ℚ) then
    let daysToSkip : ℤ := ⌊((selectedCount : ℚ) - (optimal : ℚ)) * (7 / 10)⌋
    (if isSmall && isFar then daysToSkip else ⌊(daysToSkip : ℚ) * (4 / 10)⌋).toNat
  else 0

/-- `Math.min(Math.ceil(reviewDaysForExam / 2), availableDays.length)`. -/
def daysToConvertOf (reviewDays len : ℕ) : ℕ :=
  min (Int.toNat ⌈(reviewDays : ℚ) / 2⌉) len

/-- Study-day slice: `availableDays.slice(0, reviewStartIndex)`, falling back to
the first `daysToConvert` days when the slice is empty but review days exist. -/
def studyIdxsOf (pruned : List ℕ) (reviewDays : ℕ) : List ℕ :=
  let s0 := pruned.take (pruned.length - reviewDays)
  if s0 = [] ∧ 0 < reviewDays then pruned.take (daysToConvertOf reviewDays pruned.length)
  else s0

/-- Review-day slice: `availableDays.slice(reviewStartIndex)` (the conversion
fallback does not remove converted days from this slice). -/
def reviewIdxsOf (pruned : List ℕ) (reviewDays : ℕ) : List ℕ :=
  pruned.drop (pruned.length - reviewDays)

/-- `Math.max(1, studyDays.length > 0 ? Math.ceil(units / length) : 0)`. -/
def unitsPerDayOf (units studyLen : ℕ) : ℤ :=
  max 1 (if 0 < studyLen then ⌈(units : ℚ) / (studyLen : ℚ)⌉ else 0)

/-- The distribution walk (lines 570-596): for each study day in order, assign
`min(unitsPerDay, remaining, floor(availableHours / timePerUnit))` consecutive
units starting at the cursor, with a half-hour floor on planned time; days
reached after the remaining counter hits zero receive nothing. State is
`(days, cursor, remaining)`. -/
def walkStudy (examId : ℕ) (tpu : ℚ) (unitsPerDay : ℤ) :
    List ℕ → List StudyDay × ℤ × ℤ → List StudyDay × ℤ × ℤ
  | [], st => st
  | i :: rest, (days, c, r) =>
    if r ≤ 0 then walkStudy examId tpu unitsPerDay rest (days, c, r)
    else
      match days[i]? with
      | none => walkStudy examId tpu unitsPerDay rest (days, c, r)
      | some day =>
        let m : ℤ := min (min unitsPerDay r) ⌊day.availableHours / tpu⌋
        let todayUnits : List ℤ := (List.range m.toNat).map (fun (k : ℕ) => c + (k : ℤ))
        let hoursNeeded : ℚ := max (1 / 2) ((m : ℚ) * tpu)
        walkStudy examId tpu unitsPerDay rest
          (days.set i { day with exams := day.exams ++
            [⟨examId, todayUnits, hoursNeeded, 0, false, false⟩] }, c + m, r - m)

/-- Review entries (lines 599-609): every day of the review slice gets an
assignment with empty unit list, `isReview = true` and one planned hour
(the source's `reviewDays.forEach(day => day.exams.push(...))`). -/
def appendReviews (examId : ℕ) : List ℕ → List StudyDay → List StudyDay
  | [], days => days
  | i :: rest, days =>
    match days[i]? with
    | some day =>
      appendReviews examId rest
        (days.set i { day with exams := day.exams ++ [⟨examId, [], 1, 0, false, true⟩] })
    | none => appendReviews examId rest days

/-- Per-exam review-day count: `exam.customReviewDays !== undefined ? ... :
settings.reviewDays`. -/
def reviewDaysForExamOf (st : Settings) (exam : Exam) : ℕ :=
  exam.customReviewDays.getD st.reviewDays

/-- `newStudyDays.findIndex(day => isSameDay(day.date, examDate))` (`-1` when
absent, as in JS). -/
def examDayIndexOf (days : List StudyDay) (examDate : ℤ) : ℤ :=
  match days.findIdx? (fun d => decide (d.date = examDate)) with
  | some i => (i : ℤ)
  | none => -1

/-- Day Selection for one exam (lines 494-503). -/
def selIdxsFor (keep : Bool) (days : List StudyDay) (exam : Exam) : List ℕ :=
  selectedIdxs keep exam.date (examDayIndexOf days exam.date) days

/-- Day list after Pruning for one exam (`availableDays.slice(startDayIndex)`,
lines 522-540). -/
def prunedIdxsFor (keep : Bool) (today : ℤ) (st : Settings) (days : List StudyDay)
    (exam : Exam) : List ℕ :=
  let sel := selIdxsFor keep days exam
  sel.drop (pruneStartIndex sel.length
    (optimalStudyDaysNeeded (studyUnitsOf exam) (timePerUnitOf exam) st.defaultDailyHours)
    (decide (studyUnitsOf exam < 30)) (decide (30 < exam.date - today)))

/-- The study-day slice of one exam's pruned day list (lines 543-555). -/
def studyIdxsFor (keep : Bool) (today : ℤ) (st : Settings) (days : List StudyDay)
    (exam : Exam) : List ℕ :=
  studyIdxsOf (prunedIdxsFor keep today st days exam) (reviewDaysForExamOf st exam)

/-- The review-day slice of one exam's pruned day list (line 599). -/
def reviewIdxsFor (keep : Bool) (today : ℤ) (st : Settings) (days : List StudyDay)
    (exam : Exam) : List ℕ :=
  reviewIdxsOf (prunedIdxsFor keep today st days exam) (reviewDaysForExamOf st exam)

/-- The full distribution walk of one exam over its study-day slice, from
cursor 1 with all units remaining (lines 566-596). -/
def walkFor (keep : Bool) (today : ℤ) (st : Settings) (days : List StudyDay)
    (exam : Exam) : List StudyDay × ℤ × ℤ :=
  let studyIdxs := studyIdxsFor keep today st days exam
  walkStudy exam.id (timePerUnitOf exam) (unitsPerDayOf (studyUnitsOf exam) studyIdxs.length)
    studyIdxs (days, 1, (studyUnitsOf exam : ℤ))

/-- Day Selection, Pruning and Unit Distribution for one exam
(the body of the `exams.forEach` of `generateStudyPlan`, lines 465-610). -/
def distributeExam (keep : Bool) (completedSessions : List (ℤ × StudyDayExam)) (today : ℤ)
    (st : Settings) (days : List StudyDay) (exam : Exam) : List StudyDay :=
  if exam.date - today ≤ 0 then days
  else if keep && completedSessions.any (fun s => decide (s.2.examId = exam.id)) then days
  else appendReviews exam.id (reviewIdxsFor keep today st days exam)
    (walkFor keep today st days exam).1

/-- Total planned hours of a day. -/
def sumPlanned (day : StudyDay) : ℚ := (day.exams.map (fun e => e.plannedHours)).sum

/-- The Daily Load Balancer for one day (lines 613-640): spread slack equally,
or scale down proportionally, rounding each result to one decimal. -/
def balanceDay (day : StudyDay) : StudyDay :=
  if !day.available || day.exams.isEmpty then day
  else
    let total := sumPlanned day
    if total < day.availableHours then
      let extraPerExam := (day.availableHours - total) / (day.exams.length : ℚ)
      { day with exams := day.exams.map (fun e =>
          { e with plannedHours := round1 (e.plannedHours + extraPerExam) }) }
    else if day.availableHours < total then
      { day with exams := day.exams.map (fun e =>
          { e with plannedHours := round1 (e.plannedHours * (day.availableHours / total)) }) }
    else day

/-- Full regeneration (`generateStudyPlan`, lines 408-644). `none` models the
early "add some exams" return, which leaves the stored day list untouched. -/
def generateStudyPlan (exams : List Exam) (oldDays : List StudyDay) (st : Settings)
    (keep : Bool) (today : ℤ) : Option (List StudyDay) :=
  match exams with
  | [] => none
  | e0 :: _ =>
    let completedSessions := if keep then completedSessionsOf oldDays else []
    let daysToGenerate := furthestExamDate e0 exams - today + 1
    let cal := mkCalendar oldDays st today daysToGenerate
    let cal2 :=
      if keep && decide (0 < completedSessions.length) then
        completedSessions.foldl (fun ds p => pushAssignment ds p.1 p.2) cal
      else cal
    let distributed := exams.foldl (distributeExam keep completedSessions today st) cal2
    some (distributed.map balanceDay)

/-- Effect of `generateStudyPlan` on the stored day list: the empty-exams
early return leaves it unchanged, otherwise the new plan replaces it. -/
def applyGeneratePlan (exams : List Exam) (oldDays : List StudyDay) (st : Settings)
    (keep : Bool) (today : ℤ) : List StudyDay :=
  (generateStudyPlan exams oldDays st keep today).getD oldDays

/-- Per-exam progress record of `recalculateFutureDays` (lines 196-226):
the exam object and the set of completed unit numbers. -/
structure RecalcProgress where
  exam : Exam
  completedUnits : Finset ℤ
deriving DecidableEq

/-- One step of building `examProgress`: a completed assignment adds its unit
numbers to its exam's completed set (entries keyed by exam id, in order of
first appearance on the edited day). -/
def addProgress (exams : List Exam) (acc : List (ℕ × RecalcProgress)) (e : StudyDayExam) :
    List (ℕ × RecalcProgress) :=
  if e.completed then
    match exams.find? (fun x => decide (x.id = e.examId)) with
    | none => acc
    | some exam =>
      match acc.findIdx? (fun p => decide (p.1 = e.examId)) with
      | some i =>
        match acc[i]? with
        | some p => acc.set i (p.1, ⟨p.2.exam, p.2.completedUnits ∪ e.chapters.toFinset⟩)
        | none => acc
      | none => acc ++ [(e.examId, ⟨exam, e.chapters.toFinset⟩)]
  else acc

/-- `examProgress` of `recalculateFutureDays`, built from the edited day. -/
def examProgressOf (exams : List Exam) (updatedDay : StudyDay) : List (ℕ × RecalcProgress) :=
  updatedDay.exams.foldl (addProgress exams) []

/-- AppContext.tsx line 293: `let nextUnitToAssign =
Array.from(progress.completedUnits).length + 1` — the cursor incremental
recalculation starts from, derived from the COUNT of completed units. -/
def recalcNextUnit (completedUnits : Finset ℤ) : ℤ := completedUnits.card + 1

/-- Day positions considered by `recalculateFutureDays` for one exam (lines
264-275): strictly after the edited day, strictly before the exam date,
available; then sorted by date (a stable sort, as `Array.prototype.sort`). -/
def recalcFutureIdxs (allDays : List StudyDay) (updatedDayIndex : ℕ) (examDate : ℤ) :
    List ℕ :=
  (((List.range allDays.length).filter (fun i =>
      match allDays[i]? with
      | some day =>
        decide (updatedDayIndex < i) && !(decide (day.date = examDate)) &&
          decide (day.date < examDate) && day.available
      | none => false)).mergeSort (fun i j =>
        ((allDays[i]?.map StudyDay.date).getD 0) ≤ ((allDays[j]?.map StudyDay.date).getD 0)))

/-- The unit-emitting loop of lines 348-354: iterate `unitsToday` times,
emitting and advancing the cursor only while it is still `≤ total`.
Returns `(todayUnits, nextUnit, remaining)`. -/
def recalcDistUnits : ℕ → ℤ → ℤ → ℤ → List ℤ × ℤ × ℤ
  | 0, next, remaining, _ => ([], next, remaining)
  | n + 1, next, remaining, total =>
    if next ≤ total then
      let tail := recalcDistUnits n (next + 1) (remaining - 1) total
      (next :: tail.1, tail.2)
    else recalcDistUnits n next remaining total

/-- One day of the redistribution walk of `recalculateFutureDays` (lines
313-376). State is `(days, remaining, nextUnit)`; `index` is the position
within the walked slice, `dayIdx` the position in the full day list. -/
def recalcStep (examId : ℕ) (tpu : ℚ) (total : ℕ) (reviewDays : ℕ) (compressed : Bool)
    (avgUnitsPerDay : ℚ) (futLen : ℕ) (st : List StudyDay × ℤ × ℤ) (pr : ℕ × ℕ) :
    List StudyDay × ℤ × ℤ :=
  let days := st.1
  let remaining := st.2.1
  let next := st.2.2
  let index := pr.1
  let dayIdx := pr.2
  match days[dayIdx]? with
  | none => (days, remaining, next)
  | some day =>
    let isReviewDay := (futLen : ℤ) - reviewDays ≤ (index : ℤ)
    let examDayIndex := day.exams.findIdx? (fun e => decide (e.examId = examId))
    if isReviewDay then
      match examDayIndex with
      | some j =>
        match day.exams[j]? with
        | some e =>
          let e2 := { e with isReview := true, chapters := ([] : List ℤ) }
          (days.set dayIdx { day with exams := day.exams.set j e2 }, remaining, next)
        | none => (days, remaining, next)
      | none =>
        let day2 := { day with exams := day.exams ++ [⟨examId, [], 1, 0, false, true⟩] }
        (days.set dayIdx day2, remaining, next)
    else if 0 < remaining then
      let maxUnitsForTime : ℤ := ⌊day.availableHours / tpu⌋
      let unitsToday0 : ℤ :=
        if compressed then
          min ⌈(remaining : ℚ) / ((max 1 ((futLen : ℤ) - index - reviewDays) : ℤ) : ℚ)⌉
            maxUnitsForTime
        else min (min ⌈avgUnitsPerDay⌉ remaining) maxUnitsForTime
      let unitsToday := max 1 unitsToday0
      let du := recalcDistUnits unitsToday.toNat next remaining (total : ℤ)
      let hoursNeeded : ℚ := max (1 / 2) ((unitsToday : ℚ) * tpu)
      let newDays :=
        match examDayIndex with
        | some j =>
          match day.exams[j]? with
          | some e =>
            let e2 := { e with chapters := du.1, plannedHours := hoursNeeded,
                               isReview := false }
            days.set dayIdx { day with exams := day.exams.set j e2 }
          | none => days
        | none =>
          let day2 :=
            { day with exams := day.exams ++ [⟨examId, du.1, hoursNeeded, 0, false, false⟩] }
          days.set dayIdx day2
      (newDays, du.2.2, du.2.1)
    else
      match examDayIndex with
      | some j => (days.set dayIdx { day with exams := day.exams.eraseIdx j }, remaining, next)
      | none => (days, remaining, next)

/-- Redistribution for one exam touched by the edited day (the body of the
`Object.entries(examProgress).forEach` of lines 229-377). -/
def recalcExamPass (st : Settings) (today : ℤ) (updatedDayIndex : ℕ)
    (allDays : List StudyDay) (examId : ℕ) (p : RecalcProgress) : List StudyDay :=
  let examObj := p.exam
  let examDate := examObj.date
  if examDate < today then allDays
  else
    let daysUntilExam := examDate - today
    if daysUntilExam ≤ 0 then allDays
    else
      let reviewDaysForExam := examObj.customReviewDays.getD st.reviewDays
      let tpu := timePerUnitOf examObj
      let total := studyUnitsOf examObj
      let remainingUnits : ℤ := (total : ℤ) - p.completedUnits.card
      let totalHoursNeeded : ℚ := (remainingUnits : ℚ) * tpu
      let fut0 := recalcFutureIdxs allDays updatedDayIndex examDate
      let daysNeeded : ℤ :=
        min ⌈totalHoursNeeded / (st.defaultDailyHours * (8 / 10))⌉ (fut0.length : ℤ)
      let fut1 :=
        if (daysNeeded : ℚ) * (3 / 2) < (fut0.length : ℚ) ∧ 0 < daysNeeded then
          fut0.drop (Int.toNat ⌊((fut0.length : ℚ) - (daysNeeded : ℚ)) * (7 / 10)⌋)
        else fut0
      let nextUnit0 := recalcNextUnit p.completedUnits
      let isSmallExamFarAway :=
        remainingUnits < 30 ∧ 30 < daysUntilExam ∧ 15 < fut1.length
      let fut := if isSmallExamFarAway then
          fut1.drop (Int.toNat ⌊(fut1.length : ℚ) * (6 / 10)⌋)
        else fut1
      let compressed := decide ((fut.length : ℚ) < (remainingUnits : ℚ) / 5)
      let avgUnitsPerDay : ℚ :=
        (remainingUnits : ℚ) / ((max 1 ((fut.length : ℤ) - reviewDaysForExam) : ℤ) : ℚ)
      (fut.enum.foldl
        (recalcStep examId tpu total reviewDaysForExam compressed avgUnitsPerDay fut.length)
        (allDays, remainingUnits, nextUnit0)).1

/-- `recalculateFutureDays` (lines 189-378): rebuild the forward plan of every
exam having a completed assignment on the edited day. -/
def recalcFutureDays (exams : List Exam) (st : Settings) (today : ℤ)
    (allDays : List StudyDay) (updatedDayIndex : ℕ) : List StudyDay :=
  match allDays[updatedDayIndex]? with
  | none => allDays
  | some updatedDay =>
    (examProgressOf exams updatedDay).foldl
      (fun ds p => recalcExamPass st today updatedDayIndex ds p.1 p.2) allDays

/-- Unchecking one assignment (StudyPlanPage.tsx `handleToggleCompletion`,
lines 92-108, uncheck branch, composed with `updateStudyDay` of
AppContext.tsx lines 165-186): clear the completed flag of the matching
assignment of the day at `date`, store the day back, and trigger forward
recalculation when the day still holds a completed assignment with positive
actual hours. -/
def uncheckAssignment (exams : List Exam) (st : Settings) (today : ℤ)
    (days : List StudyDay) (date : ℤ) (examId : ℕ) : List StudyDay :=
  match days.find? (fun d => decide (d.date = date)) with
  | none => days
  | some studyDay =>
    let updatedDay := { studyDay with exams := studyDay.exams.map (fun e =>
        if e.examId = examId then { e with completed := false } else e) }
    match days.findIdx? (fun d => decide (d.date = updatedDay.date)) with
    | none => days ++ [updatedDay]
    | some i =>
      let newDays := days.set i updatedDay
      if updatedDay.exams.any (fun e => e.completed && decide (0 < e.actualHours)) then
        recalcFutureDays exams st today newDays i
      else newDays

/-! Claim-side definitions: statements of the specification, written from the
spec's words, to be compared with the definitions embedded from the source. -/

/-- Spec §4.2: the "next unit to assign" cursor is `(max of completed set) + 1`,
or `1` if the completed set is empty. Written from the spec's words, to be
compared with `recalcNextUnit` (the source's count-based cursor). -/
def specNextUnitToAssign (completedUnits : Finset ℤ) : ℤ :=
  if h : completedUnits.Nonempty then completedUnits.max' h + 1 else 1

/-- The pruning start index exactly as claim C5 words it:
`floor((selectedCount − optimalDaysNeeded) * 0.7)` for small far-away exams,
`floor(0.4 * floor((selectedCount − optimalDaysNeeded) * 0.7))` otherwise,
and `0` when the selected count does not exceed `optimalDaysNeeded * 1.5`
(phrased here as `2 * selectedCount > 3 * optimalDaysNeeded`). -/
def c5StartIndex (selectedCount totalUnits : ℕ) (hoursPerUnit dailyHours : ℚ)
    (daysUntilExam : ℤ) : ℕ :=
  let optimalDaysNeeded : ℤ := ⌈(totalUnits : ℚ) * hoursPerUnit / (dailyHours * (8 / 10))⌉
  if 3 * optimalDaysNeeded < 2 * (selectedCount : ℤ) then
    let daysToSkip : ℤ := ⌊((selectedCount : ℚ) - (optimalDaysNeeded : ℚ)) * (7 / 10)⌋
    if totalUnits < 30 ∧ 30 < daysUntilExam then daysToSkip.toNat
    else (⌊(4 / 10 : ℚ) * (daysToSkip : ℚ)⌋).toNat
  else 0

/-! Unit accounting over a day list, used to state unit conservation. -/

/-- All unit numbers of one day's non-review assignments for one exam,
as a multiset (order irrelevant, duplicates counted). -/
def examUnitsOfDay (id : ℕ) (d : StudyDay) : Multiset ℤ :=
  ((d.exams.filter (fun a => decide (a.examId = id) && !a.isReview)).map
    (fun a => (a.chapters : Multiset ℤ))).sum

/-- All unit numbers assigned to one exam across a day list, non-review
assignments only. -/
def examUnitsM (id : ℕ) (days : List StudyDay) : Multiset ℤ :=
  (days.map (examUnitsOfDay id)).sum

/-! Concrete inputs used by the closed counterexample / failing-input
theorems below. -/

/-- A single exam two days away: 5 chapters, 1 hour each, default review days. -/
def examTwoDays : Exam := ⟨1, 2, false, 5, none, 1, none⟩

/-- Default-like settings: 4 daily hours, 3 review days. -/
def settingsDefault : Settings := ⟨4, 3⟩

/-- Three one-chapter exams two days away, one review day each. -/
def examsTriple : List Exam :=
  [⟨1, 2, false, 1, none, 1, some 1⟩, ⟨2, 2, false, 1, none, 1, some 1⟩,
   ⟨3, 2, false, 1, none, 1, some 1⟩]

/-- A prior calendar holding one day at date 1 whose hours were edited to 3.18. -/
def oldDaysEdited : List StudyDay := [⟨1, true, 159 / 50, []⟩]

/-- The four-day default calendar generated for `examTwoDays` (dates 0-3). -/
def calFour : List StudyDay :=
  [⟨0, true, 4, []⟩, ⟨1, true, 4, []⟩, ⟨2, true, 4, []⟩, ⟨3, true, 4, []⟩]

/-- A day holding one completed assignment with 5 actual hours logged. -/
def dayCompleted : StudyDay := ⟨0, true, 4, [⟨1, [1, 2], 2, 5, true, false⟩]⟩

/-- The exam of `dayCompleted`'s assignment. -/
def examOfDayCompleted : Exam := ⟨1, 10, false, 10, none, 1, none⟩

/-- The fields of a day that Distribution and the Balancer never touch. -/
def dayMeta (d : StudyDay) : ℤ × Bool × ℚ := (d.date, d.available, d.availableHours)

/-- The carry-forward rule of the Calendar Builder, as a predicate on one day
of the output: an existing day at the same date donates its availability flag
and hours, otherwise the defaults apply. -/
def carryForward (oldDays : List StudyDay) (st : Settings) (d : StudyDay) : Prop :=
  match oldDays.find? (fun o => decide (o.date = d.date)) with
  | some o => d.available = o.available ∧ d.availableHours = o.availableHours
  | none => d.available = true ∧ d.availableHours = st.defaultDailyHours

/-! Theorems. -/

/-- C1: the next-unit cursor that incremental recalculation starts from
(AppContext.tsx line 293) is derived from the COUNT of the completed set,
not from its maximum as the spec requires: on the out-of-order completed set
`{1, 2, 7}` the code starts at `3 + 1 = 4` — re-assigning the already
completed unit 7 — while the spec's max-based cursor starts at `7 + 1 = 8`. -/
theorem c1_count_based_cursor_bug :
    recalcNextUnit ({1, 2, 7} : Finset ℤ) = 4 ∧
      specNextUnitToAssign ({1, 2, 7} : Finset ℤ) = 8 ∧
      recalcNextUnit ({1, 2, 7} : Finset ℤ) ≠ specNextUnitToAssign ({1, 2, 7} : Finset ℤ) := by
  refine ⟨by decide, ?_, by decide⟩
  decide

unseal Rat.add Rat.mul Rat.inv Rat.sub Rat.ofScientific in
/-- C3: with `keepCompletedSessions = true`, the day filter's `&&`/`||`
precedence slip (lines 498-502) drops the `date < examDate` and `available`
conjuncts, so a single exam dated two days from today receives an assignment
on day 3 — on/after its own exam date — contradicting both the claim and the
filter's own comments. -/
theorem c3_post_deadline_assignment :
    ((generateStudyPlan [examTwoDays] [] settingsDefault true 0).getD []).any
      (fun d => decide (examTwoDays.date ≤ d.date) &&
        d.exams.any (fun a => decide (a.examId = examTwoDays.id))) = true := by
  decide

/-- C7: with an empty exam list, plan generation signals "nothing to plan"
(the `none` early return) and the stored day list is unchanged, whatever its
prior state. -/
theorem c7_empty_exams_no_change (oldDays : List StudyDay) (st : Settings) (keep : Bool)
    (today : ℤ) :
    generateStudyPlan [] oldDays st keep today = none ∧
      applyGeneratePlan [] oldDays st keep today = oldDays :=
  ⟨rfl, rfl⟩

unseal Rat.add Rat.mul Rat.inv Rat.sub Rat.ofScientific in
/-- C4 counterexample: three 1-hour review assignments land on the day whose
available hours were edited to 3.18; the balancer turns each into
`round1(1.06) = 1.1`, so the day sums to 3.3 — more than 0.1 away from its
3.18 budget, refuting the claimed ±0.1 tolerance. -/
theorem c4_tolerance_counterexample :
    ((generateStudyPlan examsTriple oldDaysEdited settingsDefault false 0).getD []).any
      (fun d => d.available && !d.exams.isEmpty &&
        decide ((1 : ℚ) / 10 < |sumPlanned d - d.availableHours|)) = true := by
  decide

unseal Rat.add Rat.mul Rat.inv Rat.sub Rat.ofScientific in
/-- C6 counterexample: for `examTwoDays` (5 units, 2 available days, 3 review
days) the empty study slice makes the engine convert both days into study
days, yet both stay in the review slice: day 0 of the generated plan carries
BOTH a non-review assignment (units 1-3) and a review assignment for the same
exam, refuting "does not also receive a review assignment". -/
theorem c6_converted_day_double_assignment :
    ((generateStudyPlan [examTwoDays] [] settingsDefault false 0).getD [])[0]? =
      some ⟨0, true, 4, [⟨1, [1, 2, 3], 3, 0, false, false⟩, ⟨1, [], 1, 0, false, true⟩]⟩ := by
  decide

unseal Rat.add Rat.mul Rat.inv Rat.sub Rat.ofScientific in
/-- C8 counterexample: with one exam dated 2 and today 0, the generated
calendar's dates are `[0, 1, 2, 3]` — the loop bound `i <= daysToGenerate`
with `daysToGenerate = diff + 1` adds a trailing day at `max(examDates) + 1`,
so the covered interval is not the claimed `[today, max(examDates)]`. -/
theorem c8_trailing_day_counterexample :
    furthestExamDate examTwoDays [examTwoDays] = 2 ∧
      ((generateStudyPlan [examTwoDays] [] settingsDefault false 0).getD []).map
        StudyDay.date = [0, 1, 2, 3] := by
  constructor
  · decide
  · decide

/-- The embedded hours-per-unit is positive whenever the stored rate is
nonnegative (both `|| default` fallbacks yield positive rates). -/
theorem timePerUnitOf_pos (e : Exam) (h : 0 ≤ e.timePerUnit) : 0 < timePerUnitOf e := by
  unfold timePerUnitOf
  split_ifs with h1 h2 h3
  · norm_num
  · positivity
  · norm_num
  · exact lt_of_le_of_ne h (Ne.symm h3)

/-- C10: a study day whose hour budget fits less than one unit
(`floor(availableHours / timePerUnit) = 0`) still receives a non-review
assignment with an empty unit list and half an hour planned, and the walk
continues with the cursor and the remaining counter unchanged; the appended
assignment enlarges the day's assignment list (so it is counted by the Load
Balancer's per-assignment split). -/
theorem c10_zero_capacity_day (examId : ℕ) (tpu : ℚ) (upd : ℤ) (rest : List ℕ) (i : ℕ)
    (days : List StudyDay) (c r : ℤ) (day : StudyDay)
    (hday : days[i]? = some day) (hr : 0 < r) (hupd : 1 ≤ upd)
    (hcap : ⌊day.availableHours / tpu⌋ = 0) :
    walkStudy examId tpu upd (i :: rest) (days, c, r) =
      walkStudy examId tpu upd rest
        (days.set i { day with exams :=
          day.exams ++ [(⟨examId, [], 1 / 2, 0, false, false⟩ : StudyDayExam)] }, c, r) ∧
    (day.exams ++ [(⟨examId, [], (1 : ℚ) / 2, 0, false, false⟩ : StudyDayExam)]).length
      = day.exams.length + 1 := by
  have hr' : ¬ r ≤ 0 := by omega
  have hm : min (min upd r) ⌊day.availableHours / tpu⌋ = 0 := by
    rw [hcap]; omega
  constructor
  · simp only [walkStudy, hr', if_false, hday, hm]
    norm_num
  · simp

/-- C10 witness: a concrete half-capacity day (1 available hour, 2 hours per
unit) receives the empty half-hour assignment. -/
theorem c10_zero_capacity_day_witness :
    ([(⟨0, true, 1, []⟩ : StudyDay)][0]? = some ⟨0, true, 1, []⟩ ∧ (0 : ℤ) < 5 ∧
      (1 : ℤ) ≤ 1 ∧ ⌊(⟨0, true, 1, []⟩ : StudyDay).availableHours / (2 : ℚ)⌋ = 0) ∧
    (walkStudy 7 2 1 [0] ([⟨0, true, 1, []⟩], 1, 5) =
      walkStudy 7 2 1 []
        ([(⟨0, true, 1, []⟩ : StudyDay)].set 0
          (⟨0, true, 1, [⟨7, [], 1 / 2, 0, false, false⟩]⟩ : StudyDay), 1, 5) ∧
      (([] : List StudyDayExam) ++ [(⟨7, [], (1 : ℚ) / 2, 0, false, false⟩ : StudyDayExam)]).length
        = 0 + 1) := by
  refine ⟨⟨rfl, by norm_num, le_refl 1, by norm_num⟩, ?_⟩
  have h := c10_zero_capacity_day 7 2 1 [] 0 [⟨0, true, 1, []⟩] 1 5 ⟨0, true, 1, []⟩
    rfl (by norm_num) (le_refl 1) (by norm_num)
  simpa using h

/-- C5: the number of early days the pruning step drops equals exactly the
claim's formula `c5StartIndex` — `floor((count − optimal) × 0.7)` for small
far-away exams, `floor(0.4 × floor((count − optimal) × 0.7))` otherwise, `0`
when the selected count does not exceed `optimal × 1.5` — and it never
exceeds the selected count. -/
theorem c5_pruning_start_index (exam : Exam) (st : Settings) (today : ℤ) (n : ℕ)
    (ht : 0 ≤ exam.timePerUnit) (hd : 0 < st.defaultDailyHours) :
    pruneStartIndex n
        (optimalStudyDaysNeeded (studyUnitsOf exam) (timePerUnitOf exam) st.defaultDailyHours)
        (decide (studyUnitsOf exam < 30)) (decide (30 < exam.date - today))
      = c5StartIndex n (studyUnitsOf exam) (timePerUnitOf exam) st.defaultDailyHours
          (exam.date - today)
    ∧ c5StartIndex n (studyUnitsOf exam) (timePerUnitOf exam) st.defaultDailyHours
        (exam.date - today) ≤ n := by
  have htpu : 0 < timePerUnitOf exam := timePerUnitOf_pos exam ht
  simp only [pruneStartIndex, c5StartIndex, optimalStudyDaysNeeded]
  set o : ℤ := ⌈(studyUnitsOf exam : ℚ) * timePerUnitOf exam /
    (st.defaultDailyHours * (8 / 10))⌉ with ho
  have hopt : 0 ≤ o := by
    rw [ho]
    exact Int.ceil_nonneg (div_nonneg
      (mul_nonneg (Nat.cast_nonneg _) htpu.le) (by positivity))
  have hcond : ((o : ℚ) * (3 / 2) < (n : ℚ)) ↔ 3 * o < 2 * (n : ℤ) := by
    rw [show (3 * o < 2 * (n : ℤ)) ↔ ((3 * o : ℤ) : ℚ) < ((2 * (n : ℤ) : ℤ) : ℚ) from
      Int.cast_lt.symm]
    push_cast
    constructor <;> intro h <;> linarith
  set dts : ℤ := ⌊((n : ℚ) - (o : ℚ)) * (7 / 10)⌋ with hdts
  by_cases hc : 3 * o < 2 * (n : ℤ)
  · rw [if_pos (hcond.mpr hc), if_pos hc]
    have hno : o < (n : ℤ) := by omega
    have hdts0 : 0 ≤ dts := by
      rw [hdts]
      refine Int.floor_nonneg.mpr (mul_nonneg ?_ (by norm_num))
      rw [sub_nonneg]
      exact_mod_cast hno.le
    have hdtsn : dts ≤ (n : ℤ) := by
      have h1 : (dts : ℚ) ≤ ((n : ℚ) - (o : ℚ)) * (7 / 10) := hdts ▸ Int.floor_le _
      have h2 : ((n : ℚ) - (o : ℚ)) * (7 / 10) ≤ (n : ℚ) := by
        have h3 : (0 : ℚ) ≤ (o : ℚ) := by exact_mod_cast hopt
        nlinarith
      have h4 : (dts : ℚ) ≤ (n : ℚ) := h1.trans h2
      exact_mod_cast h4
    have hdamp : ⌊(4 / 10 : ℚ) * (dts : ℚ)⌋ ≤ dts := by
      have h1 : (4 / 10 : ℚ) * (dts : ℚ) ≤ (dts : ℚ) := by
        have h3 : (0 : ℚ) ≤ (dts : ℚ) := by exact_mod_cast hdts0
        nlinarith
      calc ⌊(4 / 10 : ℚ) * (dts : ℚ)⌋ ≤ ⌊(dts : ℚ)⌋ := Int.floor_le_floor h1
        _ = dts := Int.floor_intCast dts
    have hdamp0 : 0 ≤ ⌊(4 / 10 : ℚ) * (dts : ℚ)⌋ := by
      refine Int.floor_nonneg.mpr (mul_nonneg (by norm_num) ?_)
      exact_mod_cast hdts0
    constructor
    · rcases Decidable.em (studyUnitsOf exam < 30 ∧ 30 < exam.date - today) with hsf | hsf
      · rw [if_pos hsf]
        have hb : (decide (studyUnitsOf exam < 30) && decide (30 < exam.date - today)) = true := by
          simp [hsf.1, hsf.2]
        rw [hb, if_pos rfl]
      · rw [if_neg hsf]
        have hb : (decide (studyUnitsOf exam < 30) && decide (30 < exam.date - today)) = false := by
          rcases Decidable.not_and_iff_or_not.mp hsf with h | h <;> simp [h]
        rw [hb]
        simp only [Bool.false_eq_true, if_false]
        rw [mul_comm ((dts : ℚ)) ((4 : ℚ) / 10)]
    · split_ifs with hsf
      · omega
      · omega
  · rw [if_neg (fun h => hc (hcond.mp h)), if_neg hc]
    exact ⟨rfl, Nat.zero_le n⟩

/-- C5 witness: the pruning formula evaluated for `examTwoDays` over ten
selected days. -/
theorem c5_pruning_start_index_witness :
    ((0 : ℚ) ≤ examTwoDays.timePerUnit ∧ (0 : ℚ) < settingsDefault.defaultDailyHours) ∧
    (pruneStartIndex 10
        (optimalStudyDaysNeeded (studyUnitsOf examTwoDays) (timePerUnitOf examTwoDays)
          settingsDefault.defaultDailyHours)
        (decide (studyUnitsOf examTwoDays < 30)) (decide (30 < examTwoDays.date - 0))
      = c5StartIndex 10 (studyUnitsOf examTwoDays) (timePerUnitOf examTwoDays)
          settingsDefault.defaultDailyHours (examTwoDays.date - 0)
    ∧ c5StartIndex 10 (studyUnitsOf examTwoDays) (timePerUnitOf examTwoDays)
        settingsDefault.defaultDailyHours (examTwoDays.date - 0) ≤ 10) := by
  refine ⟨⟨by norm_num [examTwoDays], by norm_num [settingsDefault]⟩, ?_⟩
  exact c5_pruning_start_index examTwoDays settingsDefault 0 10
    (by norm_num [examTwoDays]) (by norm_num [settingsDefault])

/-- Rounding to one decimal moves a value by at most a twentieth. -/
theorem abs_round1_sub_le (q : ℚ) : |round1 q - q| ≤ 1 / 20 := by
  unfold round1
  have h1 : (⌊q * 10 + 1 / 2⌋ : ℚ) ≤ q * 10 + 1 / 2 := Int.floor_le _
  have h2 : q * 10 + 1 / 2 - 1 < (⌊q * 10 + 1 / 2⌋ : ℚ) := Int.sub_one_lt_floor _
  rw [abs_le]
  constructor <;> linarith

/-- Summed pointwise errors bound the error of sums. -/
theorem abs_sum_map_sub_le {α : Type} (l : List α) (f g : α → ℚ) (e : ℚ)
    (h : ∀ x ∈ l, |f x - g x| ≤ e) :
    |(l.map f).sum - (l.map g).sum| ≤ (l.length : ℚ) * e := by
  induction l with
  | nil => simp
  | cons a t ih =>
    simp only [List.map_cons, List.sum_cons, List.length_cons]
    have h1 := h a (by simp)
    have h2 := ih (fun x hx => h x (List.mem_cons_of_mem a hx))
    have h3 : f a + (t.map f).sum - (g a + (t.map g).sum)
        = (f a - g a) + ((t.map f).sum - (t.map g).sum) := by ring
    rw [h3]
    calc |(f a - g a) + ((t.map f).sum - (t.map g).sum)|
        ≤ |f a - g a| + |(t.map f).sum - (t.map g).sum| := abs_add _ _
      _ ≤ e + (t.length : ℚ) * e := add_le_add h1 h2
      _ = ((t.length : ℚ) + 1) * e := by ring
      _ = ((t.length + 1 : ℕ) : ℚ) * e := by push_cast; ring

/-- Summing after adding a constant to each entry. -/
theorem sum_map_add_const {α : Type} (l : List α) (f : α → ℚ) (k : ℚ) :
    (l.map (fun x => f x + k)).sum = (l.map f).sum + (l.length : ℚ) * k := by
  induction l with
  | nil => simp
  | cons a t ih =>
    simp only [List.map_cons, List.sum_cons, List.length_cons, ih]
    push_cast
    ring

/-- Summing after scaling each entry. -/
theorem sum_map_mul_const {α : Type} (l : List α) (f : α → ℚ) (k : ℚ) :
    (l.map (fun x => f x * k)).sum = (l.map f).sum * k := by
  induction l with
  | nil => simp
  | cons a t ih =>
    simp only [List.map_cons, List.sum_cons, ih]
    ring

/-- C4 (amended): after the Load Balancer, an available day with assignments
has each plannedHours replaced by `round1(old + surplus/n)` when under budget
and by `round1(old × availableHours/total)` when over budget, and the
resulting sum is within `±0.05 × n` of the day's available hours (`n` the
number of assignments) — not within the blanket ±0.1 the claim states, which
only holds for `n ≤ 2`. -/
theorem c4_balance_amended (day : StudyDay) (hav : day.available = true)
    (hne : day.exams ≠ []) (h0 : 0 ≤ day.availableHours) :
    |sumPlanned (balanceDay day) - day.availableHours| ≤ (day.exams.length : ℚ) * (1 / 20)
    ∧ (sumPlanned day < day.availableHours →
        (balanceDay day).exams = day.exams.map (fun e =>
          { e with plannedHours := round1 (e.plannedHours +
            (day.availableHours - sumPlanned day) / (day.exams.length : ℚ)) }))
    ∧ (day.availableHours < sumPlanned day →
        (balanceDay day).exams = day.exams.map (fun e =>
          { e with plannedHours := round1 (e.plannedHours *
            (day.availableHours / sumPlanned day)) })) := by
  have hlen : (0 : ℚ) < (day.exams.length : ℚ) := by
    have := List.length_pos.mpr hne
    exact_mod_cast this
  have hempty : day.exams.isEmpty = false := by
    simpa [List.isEmpty_iff] using hne
  have hguard : (!day.available || day.exams.isEmpty) = false := by
    rw [hav, hempty]
    rfl
  rcases lt_trichotomy (sumPlanned day) day.availableHours with hlt | heq | hgt
  · have hbal : balanceDay day = { day with exams := day.exams.map (fun e =>
        { e with plannedHours := round1 (e.plannedHours +
          (day.availableHours - sumPlanned day) / (day.exams.length : ℚ)) }) } := by
      unfold balanceDay
      rw [hguard]
      simp only [Bool.false_eq_true, if_false, if_pos hlt]
    refine ⟨?_, fun _ => by rw [hbal], fun h => absurd h (by linarith)⟩
    rw [hbal]
    have hsum : sumPlanned { day with exams := day.exams.map (fun e =>
        { e with plannedHours := round1 (e.plannedHours +
          (day.availableHours - sumPlanned day) / (day.exams.length : ℚ)) }) }
        = (day.exams.map (fun e => round1 (e.plannedHours +
          (day.availableHours - sumPlanned day) / (day.exams.length : ℚ)))).sum := by
      simp only [sumPlanned, List.map_map]
      rfl
    rw [hsum]
    have hexact : (day.exams.map (fun e => e.plannedHours +
        (day.availableHours - sumPlanned day) / (day.exams.length : ℚ))).sum
        = day.availableHours := by
      rw [sum_map_add_const]
      have : sumPlanned day = (day.exams.map (fun e => e.plannedHours)).sum := rfl
      field_simp
      linarith [this]
    calc |(day.exams.map (fun e => round1 (e.plannedHours +
          (day.availableHours - sumPlanned day) / (day.exams.length : ℚ)))).sum
          - day.availableHours|
        = |(day.exams.map (fun e => round1 (e.plannedHours +
            (day.availableHours - sumPlanned day) / (day.exams.length : ℚ)))).sum
          - (day.exams.map (fun e => e.plannedHours +
            (day.availableHours - sumPlanned day) / (day.exams.length : ℚ))).sum| := by
          rw [hexact]
      _ ≤ (day.exams.length : ℚ) * (1 / 20) := by
          exact abs_sum_map_sub_le day.exams _ _ _ (fun x _ => abs_round1_sub_le _)
  · have hbal : balanceDay day = day := by
      unfold balanceDay
      rw [hguard]
      simp only [Bool.false_eq_true, if_false, heq, lt_irrefl, if_false]
    refine ⟨?_, fun h => absurd h (by linarith), fun h => absurd h (by linarith)⟩
    rw [hbal, heq]
    simp only [sub_self, abs_zero]
    positivity
  · have htot : (0 : ℚ) < sumPlanned day := lt_of_le_of_lt h0 hgt
    have hbal : balanceDay day = { day with exams := day.exams.map (fun e =>
        { e with plannedHours := round1 (e.plannedHours *
          (day.availableHours / sumPlanned day)) }) } := by
      unfold balanceDay
      rw [hguard]
      simp only [Bool.false_eq_true, if_false, if_neg (not_lt.mpr hgt.le), if_pos hgt]
    refine ⟨?_, fun h => absurd h (by linarith), fun _ => by rw [hbal]⟩
    rw [hbal]
    have hsum : sumPlanned { day with exams := day.exams.map (fun e =>
        { e with plannedHours := round1 (e.plannedHours *
          (day.availableHours / sumPlanned day)) }) }
        = (day.exams.map (fun e => round1 (e.plannedHours *
          (day.availableHours / sumPlanned day)))).sum := by
      simp only [sumPlanned, List.map_map]
      rfl
    rw [hsum]
    have hexact : (day.exams.map (fun e => e.plannedHours *
        (day.availableHours / sumPlanned day))).sum = day.availableHours := by
      rw [sum_map_mul_const]
      have hs : (day.exams.map (fun e => e.plannedHours)).sum = sumPlanned day := rfl
      rw [hs]
      field_simp
    calc |(day.exams.map (fun e => round1 (e.plannedHours *
          (day.availableHours / sumPlanned day)))).sum - day.availableHours|
        = |(day.exams.map (fun e => round1 (e.plannedHours *
            (day.availableHours / sumPlanned day)))).sum
          - (day.exams.map (fun e => e.plannedHours *
            (day.availableHours / sumPlanned day))).sum| := by rw [hexact]
      _ ≤ (day.exams.length : ℚ) * (1 / 20) := by
          exact abs_sum_map_sub_le day.exams _ _ _ (fun x _ => abs_round1_sub_le _)

unseal Rat.add Rat.mul Rat.inv Rat.sub Rat.ofScientific in
/-- C4 witness: the amended balancer bound applied to a one-assignment day
(1 planned hour against a 4-hour budget). -/
theorem c4_balance_amended_witness :
    ((⟨0, true, 4, [⟨1, [], 1, 0, false, true⟩]⟩ : StudyDay).available = true ∧
      (⟨0, true, 4, [⟨1, [], 1, 0, false, true⟩]⟩ : StudyDay).exams ≠ [] ∧
      (0 : ℚ) ≤ (⟨0, true, 4, [⟨1, [], 1, 0, false, true⟩]⟩ : StudyDay).availableHours) ∧
    |sumPlanned (balanceDay ⟨0, true, 4, [⟨1, [], 1, 0, false, true⟩]⟩) -
      (⟨0, true, 4, [⟨1, [], 1, 0, false, true⟩]⟩ : StudyDay).availableHours|
      ≤ ((⟨0, true, 4, [⟨1, [], 1, 0, false, true⟩]⟩ : StudyDay).exams.length : ℚ) * (1 / 20) := by
  refine ⟨⟨rfl, by simp, by norm_num⟩, ?_⟩
  exact (c4_balance_amended ⟨0, true, 4, [⟨1, [], 1, 0, false, true⟩]⟩ rfl (by simp)
    (by norm_num)).1

unseal Rat.add Rat.mul Rat.inv Rat.sub Rat.ofScientific in
/-- C9 counterexample: unchecking the completed assignment of `dayCompleted`
clears the completed flag but leaves `actualHours = 5` in place — the claim
says actualHours is erased along with the flag. -/
theorem c9_actual_hours_preserved_counterexample :
    uncheckAssignment [examOfDayCompleted] settingsDefault 0 [dayCompleted] 0 1 =
      [⟨0, true, 4, [⟨1, [1, 2], 2, 5, false, false⟩]⟩] := by
  decide

/-- C9 (amended): unchecking one assignment erases only its completed flag —
chapters, plannedHours and, contrary to the claim, also actualHours are kept —
and, provided no assignment on that day remains completed with positive actual
hours (otherwise forward recalculation fires and rewrites future days), every
other assignment and every other day is unchanged. -/
theorem c9_uncheck_amended (exams : List Exam) (st : Settings) (today : ℤ)
    (days : List StudyDay) (date : ℤ) (examId : ℕ) (day : StudyDay) (i : ℕ)
    (hfind : days.find? (fun d => decide (d.date = date)) = some day)
    (hidx : days.findIdx? (fun d => decide (d.date = date)) = some i)
    (hsafe : ∀ a ∈ day.exams, a.examId ≠ examId →
      ¬(a.completed = true ∧ 0 < a.actualHours)) :
    uncheckAssignment exams st today days date examId =
      days.set i { day with exams := day.exams.map (fun e =>
        if e.examId = examId then { e with completed := false } else e) }
    ∧ (∀ j, j ≠ i → (days.set i { day with exams := day.exams.map (fun e =>
        if e.examId = examId then { e with completed := false } else e) })[j]? = days[j]?)
    ∧ ∀ e : StudyDayExam,
        ((if e.examId = examId then { e with completed := false } else e).chapters
            = e.chapters
          ∧ (if e.examId = examId then { e with completed := false } else e).plannedHours
            = e.plannedHours
          ∧ (if e.examId = examId then { e with completed := false } else e).actualHours
            = e.actualHours) := by
  have hdd : day.date = date := by
    have h := List.find?_some hfind
    exact of_decide_eq_true h
  have hany : (day.exams.map (fun e =>
      if e.examId = examId then { e with completed := false } else e)).any
      (fun e => e.completed && decide (0 < e.actualHours)) = false := by
    rw [List.any_eq_false]
    intro e he
    obtain ⟨a, ha, rfl⟩ := List.mem_map.mp he
    by_cases hid : a.examId = examId
    · simp [hid]
    · have hs := hsafe a ha hid
      rw [if_neg hid]
      cases hc : a.completed
      · simp
      · simp only [hc, Bool.true_and, Bool.not_eq_true, decide_eq_false_iff_not, not_lt]
        by_contra hlt
        exact hs ⟨hc, by simpa using hlt⟩
  refine ⟨?_, ?_, ?_⟩
  · unfold uncheckAssignment
    rw [hfind]
    simp only [hdd, hidx, hany, Bool.false_eq_true, if_false]
  · intro j hj
    rw [List.getElem?_set_ne]
    omega
  · intro e
    by_cases hid : e.examId = examId <;> simp [hid]

/-- C9 amended witness: unchecking the single completed assignment of a
one-day list, with no other completed entry on the day. -/
theorem c9_uncheck_amended_witness :
    ([dayCompleted].find? (fun d => decide (d.date = 0)) = some dayCompleted ∧
      [dayCompleted].findIdx? (fun d => decide (d.date = 0)) = some 0 ∧
      (∀ a ∈ dayCompleted.exams, a.examId ≠ 1 →
        ¬(a.completed = true ∧ 0 < a.actualHours))) ∧
    uncheckAssignment [examOfDayCompleted] settingsDefault 0 [dayCompleted] 0 1 =
      [dayCompleted].set 0 { dayCompleted with exams := dayCompleted.exams.map (fun e =>
        if e.examId = 1 then { e with completed := false } else e) } := by
  have hfind : [dayCompleted].find? (fun d => decide (d.date = 0)) = some dayCompleted := by
    decide
  have hidx : [dayCompleted].findIdx? (fun d => decide (d.date = 0)) = some 0 := by
    decide
  have hsafe : ∀ a ∈ dayCompleted.exams, a.examId ≠ 1 →
      ¬(a.completed = true ∧ 0 < a.actualHours) := by
    intro a ha hne
    exfalso
    apply hne
    simp only [dayCompleted, List.mem_singleton] at ha
    rw [ha]
  exact ⟨⟨hfind, hidx, hsafe⟩,
    (c9_uncheck_amended [examOfDayCompleted] settingsDefault 0 [dayCompleted] 0 1
      dayCompleted 0 hfind hidx hsafe).1⟩

/-! Preservation machinery: every stage after the Calendar Builder changes
only the `exams` lists of days, never their date, availability or hours. -/

/-- Replacing an element by one with equal metadata preserves the metadata map. -/
theorem map_dayMeta_set (days : List StudyDay) (i : ℕ) (d' day : StudyDay)
    (h : days[i]? = some day) (hm : dayMeta d' = dayMeta day) :
    (days.set i d').map dayMeta = days.map dayMeta := by
  induction days generalizing i with
  | nil => simp at h
  | cons a t ih =>
    cases i with
    | zero =>
      simp only [List.getElem?_cons_zero, Option.some_inj] at h
      simp [List.set, hm, h]
    | succ n =>
      simp only [List.getElem?_cons_succ] at h
      simp [List.set, ih n h]

/-- The distribution walk preserves every day's metadata. -/
theorem walkStudy_map_dayMeta (examId : ℕ) (tpu : ℚ) (upd : ℤ) :
    ∀ (idxs : List ℕ) (days : List StudyDay) (c r : ℤ),
      ((walkStudy examId tpu upd idxs (days, c, r)).1).map dayMeta = days.map dayMeta := by
  intro idxs
  induction idxs with
  | nil => intro days c r; rfl
  | cons i rest ih =>
    intro days c r
    by_cases hr : r ≤ 0
    · simp only [walkStudy, hr, if_true]
      exact ih days c r
    · simp only [walkStudy, hr, if_false]
      cases hday : days[i]? with
      | none => exact ih days c r
      | some day =>
        rw [ih]
        exact map_dayMeta_set days i _ day hday rfl

/-- Appending review entries preserves every day's metadata. -/
theorem appendReviews_map_dayMeta (examId : ℕ) :
    ∀ (idxs : List ℕ) (days : List StudyDay),
      (appendReviews examId idxs days).map dayMeta = days.map dayMeta := by
  intro idxs
  induction idxs with
  | nil => intro days; rfl
  | cons i rest ih =>
    intro days
    cases hday : days[i]? with
    | none => simp only [appendReviews, hday, ih]
    | some day =>
      simp only [appendReviews, hday, ih]
      exact map_dayMeta_set days i _ day hday rfl

/-- Re-adding a preserved completed assignment keeps every day's metadata. -/
theorem pushAssignment_map_dayMeta (days : List StudyDay) (d : ℤ) (a : StudyDayExam) :
    (pushAssignment days d a).map dayMeta = days.map dayMeta := by
  unfold pushAssignment
  cases hidx : days.findIdx? (fun day => decide (day.date = d)) with
  | none => rfl
  | some i =>
    dsimp only
    cases hday : days[i]? with
    | none => rfl
    | some day => exact map_dayMeta_set days i _ day hday rfl

/-- The completed-session re-adding fold keeps every day's metadata. -/
theorem foldl_pushAssignment_map_dayMeta :
    ∀ (cs : List (ℤ × StudyDayExam)) (days : List StudyDay),
      (cs.foldl (fun ds p => pushAssignment ds p.1 p.2) days).map dayMeta
        = days.map dayMeta := by
  intro cs
  induction cs with
  | nil => intro days; rfl
  | cons p rest ih =>
    intro days
    rw [List.foldl_cons, ih, pushAssignment_map_dayMeta]

/-- Per-exam distribution keeps every day's metadata. -/
theorem distributeExam_map_dayMeta (keep : Bool) (cs : List (ℤ × StudyDayExam)) (today : ℤ)
    (st : Settings) (days : List StudyDay) (exam : Exam) :
    (distributeExam keep cs today st days exam).map dayMeta = days.map dayMeta := by
  unfold distributeExam
  split_ifs
  · rfl
  · rfl
  · rw [appendReviews_map_dayMeta]
    unfold walkFor
    exact walkStudy_map_dayMeta _ _ _ _ _ _ _

/-- Distributing all exams keeps every day's metadata. -/
theorem foldl_distributeExam_map_dayMeta (keep : Bool) (cs : List (ℤ × StudyDayExam))
    (today : ℤ) (st : Settings) :
    ∀ (exams : List Exam) (days : List StudyDay),
      (exams.foldl (distributeExam keep cs today st) days).map dayMeta
        = days.map dayMeta := by
  intro exams
  induction exams with
  | nil => intro days; rfl
  | cons e rest ih =>
    intro days
    rw [List.foldl_cons, ih, distributeExam_map_dayMeta]

/-- The Load Balancer keeps a day's metadata. -/
theorem balanceDay_dayMeta (d : StudyDay) : dayMeta (balanceDay d) = dayMeta d := by
  unfold balanceDay
  dsimp only
  split_ifs <;> rfl

/-- The Load Balancer pass keeps the metadata map. -/
theorem map_balanceDay_map_dayMeta (days : List StudyDay) :
    (days.map balanceDay).map dayMeta = days.map dayMeta := by
  rw [List.map_map]
  exact List.map_congr_left (fun d _ => balanceDay_dayMeta d)

/-- A calendar day is dated by its generating date. -/
theorem calendarDay_date (oldDays : List StudyDay) (st : Settings) (d : ℤ) :
    (calendarDay oldDays st d).date = d := by
  unfold calendarDay
  cases oldDays.find? (fun day => decide (day.date = d)) <;> rfl

/-- The rebuilt calendar's dates are consecutive from `today`. -/
theorem mkCalendar_map_date (oldDays : List StudyDay) (st : Settings) (today n : ℤ) :
    (mkCalendar oldDays st today n).map StudyDay.date
      = (List.range (n + 1).toNat).map (fun (i : ℕ) => today + (i : ℤ)) := by
  unfold mkCalendar
  rw [List.map_map]
  exact List.map_congr_left (fun i _ => calendarDay_date oldDays st (today + i))

/-- Every day of the rebuilt calendar observes the carry-forward rule. -/
theorem mkCalendar_carryForward (oldDays : List StudyDay) (st : Settings) (today n : ℤ) :
    ∀ d ∈ mkCalendar oldDays st today n, carryForward oldDays st d := by
  intro d hd
  unfold mkCalendar at hd
  obtain ⟨i, _, rfl⟩ := List.mem_map.mp hd
  unfold carryForward calendarDay
  cases hf : oldDays.find? (fun o => decide (o.date = today + (i : ℤ))) <;> simp [hf]

/-- Carry-forward transfers along equal metadata. -/
theorem carryForward_of_dayMeta_eq (oldDays : List StudyDay) (st : Settings)
    (c d : StudyDay) (hm : dayMeta d = dayMeta c) (h : carryForward oldDays st c) :
    carryForward oldDays st d := by
  have hdate : d.date = c.date := congrArg Prod.fst hm
  have hav : d.available = c.available := congrArg (fun p => p.2.1) hm
  have hhrs : d.availableHours = c.availableHours := congrArg (fun p => p.2.2) hm
  unfold carryForward at h ⊢
  rw [hdate, hav, hhrs]
  exact h

/-- Metadata-equal lists relate their members. -/
theorem exists_mem_of_map_dayMeta_eq {l l' : List StudyDay}
    (h : l.map dayMeta = l'.map dayMeta) {d : StudyDay} (hd : d ∈ l) :
    ∃ c ∈ l', dayMeta d = dayMeta c := by
  have : dayMeta d ∈ l'.map dayMeta := h ▸ List.mem_map_of_mem dayMeta hd
  obtain ⟨c, hc, he⟩ := List.mem_map.mp this
  exact ⟨c, hc, he.symm⟩

/-- The composed post-calendar stages (re-adding completed sessions, per-exam
distribution, balancing) keep the metadata map of the calendar they start from. -/
theorem genStages_map_dayMeta (keep : Bool) (cs : List (ℤ × StudyDayExam)) (today : ℤ)
    (st : Settings) (exams : List Exam) (cal : List StudyDay) :
    (((exams.foldl (distributeExam keep cs today st)
        (if keep && decide (0 < cs.length)
          then cs.foldl (fun ds p => pushAssignment ds p.1 p.2) cal
          else cal)).map balanceDay).map dayMeta)
      = cal.map dayMeta := by
  rw [map_balanceDay_map_dayMeta, foldl_distributeExam_map_dayMeta]
  split_ifs with h
  · exact foldl_pushAssignment_map_dayMeta cs cal
  · rfl

/-- Equal metadata maps give equal date maps. -/
theorem map_date_eq_of_map_dayMeta_eq {l l' : List StudyDay}
    (h : l.map dayMeta = l'.map dayMeta) :
    l.map StudyDay.date = l'.map StudyDay.date := by
  have h1 : (l.map dayMeta).map Prod.fst = (l'.map dayMeta).map Prod.fst := by rw [h]
  rw [List.map_map, List.map_map] at h1
  exact h1

/-- C8 (amended): a full regeneration returns one StudyDay per date covering
exactly the closed interval `[today, max(examDates) + 1]` — one trailing day
beyond the claimed `max(examDates)` — in strictly increasing order with no
gaps or duplicates; days that existed before keep their availability flag and
hours, all others default to available with `defaultDailyHours`. -/
theorem c8_calendar_amended (e0 : Exam) (rest : List Exam) (oldDays : List StudyDay)
    (st : Settings) (keep : Bool) (today : ℤ)
    (hle : today ≤ furthestExamDate e0 (e0 :: rest)) :
    ∃ days, generateStudyPlan (e0 :: rest) oldDays st keep today = some days ∧
      days.map StudyDay.date
        = (List.range (furthestExamDate e0 (e0 :: rest) - today + 2).toNat).map
            (fun (i : ℕ) => today + (i : ℤ)) ∧
      (days.map StudyDay.date).Pairwise (· < ·) ∧
      ∀ d ∈ days, carryForward oldDays st d := by
  refine ⟨_, rfl, ?_, ?_, ?_⟩
  · calc _ = (mkCalendar oldDays st today
          (furthestExamDate e0 (e0 :: rest) - today + 1)).map StudyDay.date :=
        map_date_eq_of_map_dayMeta_eq (genStages_map_dayMeta keep _ today st _ _)
      _ = _ := by
        rw [mkCalendar_map_date]
        have h2 : furthestExamDate e0 (e0 :: rest) - today + 1 + 1
            = furthestExamDate e0 (e0 :: rest) - today + 2 := by ring
        rw [h2]
  · rw [map_date_eq_of_map_dayMeta_eq (genStages_map_dayMeta keep _ today st _ _),
      mkCalendar_map_date]
    refine List.pairwise_map.mpr ((List.pairwise_lt_range _).imp (fun hab => ?_))
    dsimp only
    omega
  · intro d hd
    obtain ⟨c, hc, hm⟩ :=
      exists_mem_of_map_dayMeta_eq (genStages_map_dayMeta keep _ today st _ _) hd
    exact carryForward_of_dayMeta_eq oldDays st c d hm
      (mkCalendar_carryForward oldDays st today _ c hc)

/-- C8 amended witness: the single-exam instance — today 0, exam date 2 —
covers `[0, 3]` with the default carry-forward. -/
theorem c8_calendar_amended_witness :
    ((0 : ℤ) ≤ furthestExamDate examTwoDays [examTwoDays]) ∧
    ∃ days, generateStudyPlan [examTwoDays] [] settingsDefault false 0 = some days ∧
      days.map StudyDay.date
        = (List.range (furthestExamDate examTwoDays [examTwoDays] - 0 + 2).toNat).map
            (fun (i : ℕ) => (0 : ℤ) + (i : ℤ)) ∧
      (days.map StudyDay.date).Pairwise (· < ·) ∧
      ∀ d ∈ days, carryForward [] settingsDefault d := by
  refine ⟨by decide, ?_⟩
  exact c8_calendar_amended examTwoDays [] [] settingsDefault false 0 (by decide)

/-- One non-skipped step of the walk appends exactly one non-review assignment
for the exam to the day at the head index. -/
theorem walkStudy_cons_step (examId : ℕ) (tpu : ℚ) (upd : ℤ) (i : ℕ) (rest : List ℕ)
    (days : List StudyDay) (c r : ℤ) (day : StudyDay)
    (hr : ¬ r ≤ 0) (hday : days[i]? = some day) :
    ∃ a : StudyDayExam, a.examId = examId ∧ a.isReview = false ∧
      ∃ c' r', walkStudy examId tpu upd (i :: rest) (days, c, r)
        = walkStudy examId tpu upd rest
            (days.set i { day with exams := day.exams ++ [a] }, c', r') := by
  refine ⟨⟨examId,
    (List.range (min (min upd r) ⌊day.availableHours / tpu⌋).toNat).map
      (fun (k : ℕ) => c + (k : ℤ)),
    max (1 / 2) (((min (min upd r) ⌊day.availableHours / tpu⌋ : ℤ) : ℚ) * tpu),
    0, false, false⟩, rfl, rfl,
    c + min (min upd r) ⌊day.availableHours / tpu⌋,
    r - min (min upd r) ⌊day.availableHours / tpu⌋, ?_⟩
  simp only [walkStudy, hr, if_false, hday]

/-- The distribution walk only ever appends to a day's assignment list. -/
theorem walkStudy_exams_mono (examId : ℕ) (tpu : ℚ) (upd : ℤ) :
    ∀ (idxs : List ℕ) (days : List StudyDay) (c r : ℤ) (j : ℕ) (dayj : StudyDay),
      days[j]? = some dayj →
      ∃ day' ext, (walkStudy examId tpu upd idxs (days, c, r)).1[j]? = some day' ∧
        day'.exams = dayj.exams ++ ext := by
  intro idxs
  induction idxs with
  | nil => exact fun days c r j dayj h => ⟨dayj, [], h, by simp⟩
  | cons i rest ih =>
    intro days c r j dayj h
    by_cases hr : r ≤ 0
    · simp only [walkStudy, hr, if_true]
      exact ih days c r j dayj h
    · cases hday : days[i]? with
      | none =>
        simp only [walkStudy, hr, if_false, hday]
        exact ih days c r j dayj h
      | some day =>
        obtain ⟨hlt, -⟩ := List.getElem?_eq_some.mp hday
        obtain ⟨a, -, -, c', r', hstep⟩ :=
          walkStudy_cons_step examId tpu upd i rest days c r day hr hday
        rw [hstep]
        by_cases hij : i = j
        · subst hij
          rw [h] at hday
          obtain rfl : dayj = day := Option.some_inj.mp hday
          have hset : (days.set i { dayj with exams := dayj.exams ++ [a] })[i]?
              = some { dayj with exams := dayj.exams ++ [a] } :=
            List.getElem?_set_self hlt
          obtain ⟨day', ext, h1, h2⟩ := ih _ c' r' i _ hset
          refine ⟨day', [a] ++ ext, h1, ?_⟩
          rw [h2]
          simp
        · have hset : (days.set i { day with exams := day.exams ++ [a] })[j]? = days[j]? :=
            List.getElem?_set_ne hij
          obtain ⟨day', ext, h1, h2⟩ := ih _ c' r' j dayj (by rw [hset]; exact h)
          exact ⟨day', ext, h1, h2⟩

/-- Appending review entries only appends to each day's assignment list, and
every walked position receives the review entry. -/
theorem appendReviews_exams_result (examId : ℕ) :
    ∀ (idxs : List ℕ) (days : List StudyDay) (j : ℕ) (dayj : StudyDay),
      days[j]? = some dayj →
      ∃ day' ext, (appendReviews examId idxs days)[j]? = some day' ∧
        day'.exams = dayj.exams ++ ext ∧
        (j ∈ idxs → (⟨examId, [], 1, 0, false, true⟩ : StudyDayExam) ∈ day'.exams) := by
  intro idxs
  induction idxs with
  | nil =>
    exact fun days j dayj h => ⟨dayj, [], h, by simp, fun hj => absurd hj (List.not_mem_nil j)⟩
  | cons i rest ih =>
    intro days j dayj h
    cases hday : days[i]? with
    | none =>
      simp only [appendReviews, hday]
      obtain ⟨day', ext, h1, h2, h3⟩ := ih days j dayj h
      refine ⟨day', ext, h1, h2, fun hj => ?_⟩
      rcases List.mem_cons.mp hj with rfl | hj'
      · rw [h] at hday
        exact absurd hday (by simp)
      · exact h3 hj'
    | some day =>
      obtain ⟨hlt, -⟩ := List.getElem?_eq_some.mp hday
      simp only [appendReviews, hday]
      by_cases hij : i = j
      · subst hij
        rw [h] at hday
        obtain rfl : dayj = day := Option.some_inj.mp hday
        have hset : (days.set i { dayj with exams :=
            dayj.exams ++ [⟨examId, [], 1, 0, false, true⟩] })[i]?
            = some { dayj with exams := dayj.exams ++ [⟨examId, [], 1, 0, false, true⟩] } :=
          List.getElem?_set_self hlt
        obtain ⟨day', ext, h1, h2, h3⟩ := ih _ i _ hset
        refine ⟨day', (⟨examId, [], 1, 0, false, true⟩ : StudyDayExam) :: ext, h1,
          by rw [h2]; simp, fun _ => ?_⟩
        rw [h2]
        simp
      · have hset : (days.set i { day with exams :=
            day.exams ++ [⟨examId, [], 1, 0, false, true⟩] })[j]? = days[j]? :=
          List.getElem?_set_ne hij
        obtain ⟨day', ext, h1, h2, h3⟩ := ih _ j dayj (by rw [hset]; exact h)
        refine ⟨day', ext, h1, h2, fun hj => ?_⟩
        rcases List.mem_cons.mp hj with rfl | hj'
        · exact absurd rfl hij
        · exact h3 hj'

/-- Every selected position is a position of the day list. -/
theorem mem_selectedIdxs_lt (keep : Bool) (examDate examDayIndex : ℤ)
    (days : List StudyDay) :
    ∀ i ∈ selectedIdxs keep examDate examDayIndex days, i < days.length := by
  intro i hi
  unfold selectedIdxs at hi
  exact List.mem_range.mp (List.mem_filter.mp hi).1

/-- Every pruned position is a position of the day list. -/
theorem mem_prunedIdxsFor_lt (keep : Bool) (today : ℤ) (st : Settings)
    (days : List StudyDay) (exam : Exam) :
    ∀ i ∈ prunedIdxsFor keep today st days exam, i < days.length := by
  intro i hi
  unfold prunedIdxsFor at hi
  exact mem_selectedIdxs_lt keep exam.date (examDayIndexOf days exam.date) days i
    (List.mem_of_mem_drop hi)

/-- With at least one review day requested, at least one day gets converted. -/
theorem daysToConvertOf_pos (reviewDays len : ℕ) (h1 : 0 < reviewDays) (h2 : 0 < len) :
    0 < daysToConvertOf reviewDays len := by
  unfold daysToConvertOf
  refine lt_min ?_ h2
  have hrd : (0 : ℚ) < (reviewDays : ℚ) := by exact_mod_cast h1
  have hhalf : (0 : ℚ) < (reviewDays : ℚ) / 2 := by linarith
  have hc : 0 < ⌈(reviewDays : ℚ) / 2⌉ := Int.ceil_pos.mpr hhalf
  omega

/-- When the whole pruned list fits inside the review window, the study slice
is empty and the conversion fallback fires: the study slice becomes the first
`daysToConvert` days while the review slice keeps ALL days. -/
theorem studyIdxsOf_of_short (pruned : List ℕ) (reviewDays : ℕ)
    (hlen : pruned.length ≤ reviewDays) (hrd : 0 < reviewDays) :
    studyIdxsOf pruned reviewDays
        = pruned.take (daysToConvertOf reviewDays pruned.length)
      ∧ reviewIdxsOf pruned reviewDays = pruned := by
  have h0 : pruned.length - reviewDays = 0 := by omega
  constructor
  · unfold studyIdxsOf
    rw [h0, List.take_zero, if_pos ⟨rfl, hrd⟩]
  · unfold reviewIdxsOf
    rw [h0, List.drop_zero]

/-- C6 (amended): when the study slice is empty but review days exist, exactly
`min(ceil(reviewDaysForExam / 2), availableDayCount)` earliest days are
converted into study days and the study slice becomes non-empty, so the exam
does not end up with zero study assignments; but converted days are NOT
removed from the review slice — the review slice still holds every available
day — so the first converted day receives BOTH a non-review assignment and a
review assignment for the same exam. -/
theorem c6_conversion_amended (keep : Bool) (cs : List (ℤ × StudyDayExam)) (today : ℤ)
    (st : Settings) (days : List StudyDay) (exam : Exam)
    (hguard1 : ¬(exam.date - today ≤ 0))
    (hguard2 : (keep && cs.any (fun s => decide (s.2.examId = exam.id))) = false)
    (hshort : (prunedIdxsFor keep today st days exam).length ≤ reviewDaysForExamOf st exam)
    (hrd : 0 < reviewDaysForExamOf st exam)
    (hne : prunedIdxsFor keep today st days exam ≠ [])
    (hunits : 0 < studyUnitsOf exam) :
    studyIdxsFor keep today st days exam
        = (prunedIdxsFor keep today st days exam).take
            (daysToConvertOf (reviewDaysForExamOf st exam)
              (prunedIdxsFor keep today st days exam).length)
    ∧ reviewIdxsFor keep today st days exam = prunedIdxsFor keep today st days exam
    ∧ studyIdxsFor keep today st days exam ≠ []
    ∧ ∃ i0 day',
        (prunedIdxsFor keep today st days exam).head? = some i0 ∧
        (distributeExam keep cs today st days exam)[i0]? = some day' ∧
        (∃ a ∈ day'.exams, a.examId = exam.id ∧ a.isReview = false) ∧
        (⟨exam.id, [], 1, 0, false, true⟩ : StudyDayExam) ∈ day'.exams := by
  obtain ⟨hstudy, hreview⟩ := studyIdxsOf_of_short (prunedIdxsFor keep today st days exam)
    (reviewDaysForExamOf st exam) hshort hrd
  have hstudyF : studyIdxsFor keep today st days exam
      = (prunedIdxsFor keep today st days exam).take
          (daysToConvertOf (reviewDaysForExamOf st exam)
            (prunedIdxsFor keep today st days exam).length) := hstudy
  have hreviewF : reviewIdxsFor keep today st days exam
      = prunedIdxsFor keep today st days exam := hreview
  obtain ⟨i0, ptail, hp⟩ := List.exists_cons_of_ne_nil hne
  have hk : 0 < daysToConvertOf (reviewDaysForExamOf st exam)
      (prunedIdxsFor keep today st days exam).length :=
    daysToConvertOf_pos _ _ hrd (List.length_pos.mpr hne)
  obtain ⟨k, hkk⟩ : ∃ k, daysToConvertOf (reviewDaysForExamOf st exam)
      (prunedIdxsFor keep today st days exam).length = k + 1 :=
    ⟨daysToConvertOf (reviewDaysForExamOf st exam)
      (prunedIdxsFor keep today st days exam).length - 1, by omega⟩
  have hsteq : studyIdxsFor keep today st days exam = i0 :: ptail.take k := by
    rw [hstudyF, hkk, hp, List.take_succ_cons]
  have hlt0 : i0 < days.length :=
    mem_prunedIdxsFor_lt keep today st days exam i0 (by rw [hp]; exact List.mem_cons_self i0 ptail)
  have hday0 : days[i0]? = some days[i0] := List.getElem?_eq_getElem hlt0
  refine ⟨hstudyF, hreviewF, by rw [hsteq]; simp, ?_⟩
  have hdist : distributeExam keep cs today st days exam
      = appendReviews exam.id (reviewIdxsFor keep today st days exam)
          (walkFor keep today st days exam).1 := by
    unfold distributeExam
    rw [if_neg hguard1, if_neg (by simp [hguard2])]
  have hwalkFor : walkFor keep today st days exam
      = walkStudy exam.id (timePerUnitOf exam)
          (unitsPerDayOf (studyUnitsOf exam) (studyIdxsFor keep today st days exam).length)
          (i0 :: ptail.take k) (days, 1, (studyUnitsOf exam : ℤ)) := by
    unfold walkFor
    rw [← hsteq]
  have hr0 : ¬ ((studyUnitsOf exam : ℤ) ≤ 0) := by
    have : (0 : ℤ) < (studyUnitsOf exam : ℤ) := by exact_mod_cast hunits
    omega
  obtain ⟨a, ha1, ha2, c', r', hstep⟩ := walkStudy_cons_step exam.id (timePerUnitOf exam)
    (unitsPerDayOf (studyUnitsOf exam) (studyIdxsFor keep today st days exam).length)
    i0 (ptail.take k) days 1 (studyUnitsOf exam : ℤ) days[i0] hr0 hday0
  have hset : (days.set i0 { days[i0] with exams := days[i0].exams ++ [a] })[i0]?
      = some { days[i0] with exams := days[i0].exams ++ [a] } :=
    List.getElem?_set_self hlt0
  obtain ⟨day2, ext2, h2a, h2b⟩ := walkStudy_exams_mono exam.id (timePerUnitOf exam)
    (unitsPerDayOf (studyUnitsOf exam) (studyIdxsFor keep today st days exam).length)
    (ptail.take k) (days.set i0 { days[i0] with exams := days[i0].exams ++ [a] }) c' r'
    i0 { days[i0] with exams := days[i0].exams ++ [a] } hset
  obtain ⟨day3, ext3, h3a, h3b, h3c⟩ := appendReviews_exams_result exam.id
    (reviewIdxsFor keep today st days exam)
    (walkStudy exam.id (timePerUnitOf exam)
      (unitsPerDayOf (studyUnitsOf exam) (studyIdxsFor keep today st days exam).length)
      (ptail.take k)
      (days.set i0 { days[i0] with exams := days[i0].exams ++ [a] }, c', r')).1
    i0 day2 h2a
  refine ⟨i0, day3, by rw [hp]; rfl, ?_, ?_, ?_⟩
  · rw [hdist, hwalkFor, hstep]
    exact h3a
  · refine ⟨a, ?_, ha1, ha2⟩
    rw [h3b, h2b]
    simp
  · apply h3c
    rw [hreviewF, hp]
    exact List.mem_cons_self i0 ptail

unseal Rat.add Rat.mul Rat.inv Rat.sub Rat.ofScientific in
/-- C6 amended witness: `examTwoDays` over its four-day default calendar — two
available days, all inside the three-day review window, both converted. -/
theorem c6_conversion_amended_witness :
    ((¬(examTwoDays.date - 0 ≤ 0)) ∧
      ((false : Bool) && ([] : List (ℤ × StudyDayExam)).any
        (fun s => decide (s.2.examId = examTwoDays.id))) = false ∧
      (prunedIdxsFor false 0 settingsDefault calFour examTwoDays).length
        ≤ reviewDaysForExamOf settingsDefault examTwoDays ∧
      0 < reviewDaysForExamOf settingsDefault examTwoDays ∧
      prunedIdxsFor false 0 settingsDefault calFour examTwoDays ≠ [] ∧
      0 < studyUnitsOf examTwoDays) ∧
    (studyIdxsFor false 0 settingsDefault calFour examTwoDays
        = (prunedIdxsFor false 0 settingsDefault calFour examTwoDays).take
            (daysToConvertOf (reviewDaysForExamOf settingsDefault examTwoDays)
              (prunedIdxsFor false 0 settingsDefault calFour examTwoDays).length)
    ∧ reviewIdxsFor false 0 settingsDefault calFour examTwoDays
        = prunedIdxsFor false 0 settingsDefault calFour examTwoDays
    ∧ studyIdxsFor false 0 settingsDefault calFour examTwoDays ≠ []
    ∧ ∃ i0 day',
        (prunedIdxsFor false 0 settingsDefault calFour examTwoDays).head? = some i0 ∧
        (distributeExam false [] 0 settingsDefault calFour examTwoDays)[i0]? = some day' ∧
        (∃ a ∈ day'.exams, a.examId = examTwoDays.id ∧ a.isReview = false) ∧
        (⟨examTwoDays.id, [], 1, 0, false, true⟩ : StudyDayExam) ∈ day'.exams) := by
  refine ⟨⟨by decide, rfl, by decide, by decide, by decide, by decide⟩, ?_⟩
  exact c6_conversion_amended false [] 0 settingsDefault calFour examTwoDays
    (by decide) rfl (by decide) (by decide) (by decide) (by decide)

/-! Unit conservation (claim C2). -/

/-- Replacing one element relates the sums of a multiset-valued map. -/
theorem sum_map_set (f : StudyDay → Multiset ℤ) :
    ∀ (l : List StudyDay) (i : ℕ) (x y : StudyDay), l[i]? = some y →
      ((l.set i x).map f).sum + f y = (l.map f).sum + f x := by
  intro l
  induction l with
  | nil => intro i x y h; simp at h
  | cons a t ih =>
    intro i x y h
    cases i with
    | zero =>
      simp only [List.getElem?_cons_zero, Option.some_inj] at h
      subst h
      simp only [List.set, List.map_cons, List.sum_cons]
      abel
    | succ n =>
      simp only [List.getElem?_cons_succ] at h
      simp only [List.set, List.map_cons, List.sum_cons]
      have h1 := ih n x y h
      calc f a + ((t.set n x).map f).sum + f y
          = f a + (((t.set n x).map f).sum + f y) := add_assoc _ _ _
        _ = f a + ((t.map f).sum + f x) := by rw [h1]
        _ = f a + (t.map f).sum + f x := (add_assoc _ _ _).symm

/-- Appending one assignment to a day adds exactly its (filtered) units. -/
theorem examUnitsOfDay_append (id : ℕ) (d : StudyDay) (a : StudyDayExam) :
    examUnitsOfDay id { d with exams := d.exams ++ [a] }
      = examUnitsOfDay id d
        + (if a.examId = id ∧ a.isReview = false then (a.chapters : Multiset ℤ) else 0) := by
  unfold examUnitsOfDay
  simp only [List.filter_append, List.map_append, List.sum_append]
  congr 1
  by_cases h1 : a.examId = id
  · by_cases h2 : a.isReview
    · simp [h1, h2]
    · simp [h1, h2]
  · simp [h1]

/-- Updating one day by appending an assignment adds its filtered units to the
whole accounting. -/
theorem examUnitsM_set_append (id : ℕ) (days : List StudyDay) (i : ℕ) (day : StudyDay)
    (a : StudyDayExam) (h : days[i]? = some day) :
    examUnitsM id (days.set i { day with exams := day.exams ++ [a] })
      = examUnitsM id days
        + (if a.examId = id ∧ a.isReview = false then (a.chapters : Multiset ℤ) else 0) := by
  have hs := sum_map_set (examUnitsOfDay id) days i { day with exams := day.exams ++ [a] }
    day h
  rw [examUnitsOfDay_append] at hs
  unfold examUnitsM
  have hs2 : ((days.set i { day with exams := day.exams ++ [a] }).map
        (examUnitsOfDay id)).sum + examUnitsOfDay id day
      = ((days.map (examUnitsOfDay id)).sum
          + (if a.examId = id ∧ a.isReview = false then (a.chapters : Multiset ℤ) else 0))
        + examUnitsOfDay id day := by
    rw [hs]
    abel
  exact add_right_cancel hs2

/-- Review entries never contribute to the unit accounting. -/
theorem appendReviews_examUnitsM (id : ℕ) :
    ∀ (idxs : List ℕ) (days : List StudyDay),
      examUnitsM id (appendReviews id idxs days) = examUnitsM id days := by
  intro idxs
  induction idxs with
  | nil => intro days; rfl
  | cons i rest ih =>
    intro days
    cases hday : days[i]? with
    | none => simp only [appendReviews, hday, ih]
    | some day =>
      simp only [appendReviews, hday, ih]
      rw [examUnitsM_set_append id days i day _ hday]
      simp

/-- Study-slice positions are positions of the day list. -/
theorem mem_studyIdxsFor_lt (keep : Bool) (today : ℤ) (st : Settings)
    (days : List StudyDay) (exam : Exam) :
    ∀ i ∈ studyIdxsFor keep today st days exam, i < days.length := by
  intro i hi
  unfold studyIdxsFor studyIdxsOf at hi
  refine mem_prunedIdxsFor_lt keep today st days exam i ?_
  by_cases hc : (prunedIdxsFor keep today st days exam).take
      ((prunedIdxsFor keep today st days exam).length - reviewDaysForExamOf st exam) = []
      ∧ 0 < reviewDaysForExamOf st exam
  · rw [if_pos hc] at hi
    exact List.mem_of_mem_take hi
  · rw [if_neg hc] at hi
    exact List.mem_of_mem_take hi

/-- One non-skipped step of the walk, with the appended assignment's unit list
and the cursor arithmetic exposed. -/
theorem walkStudy_cons_step_full (examId : ℕ) (tpu : ℚ) (upd : ℤ) (i : ℕ) (rest : List ℕ)
    (days : List StudyDay) (c r : ℤ) (day : StudyDay)
    (hr : ¬ r ≤ 0) (hday : days[i]? = some day) :
    ∃ a : StudyDayExam, a.examId = examId ∧ a.isReview = false ∧
      a.chapters = (List.range (min (min upd r) ⌊day.availableHours / tpu⌋).toNat).map
        (fun (k : ℕ) => c + (k : ℤ)) ∧
      walkStudy examId tpu upd (i :: rest) (days, c, r)
        = walkStudy examId tpu upd rest
            (days.set i { day with exams := day.exams ++ [a] },
              c + min (min upd r) ⌊day.availableHours / tpu⌋,
              r - min (min upd r) ⌊day.availableHours / tpu⌋) := by
  refine ⟨⟨examId,
    (List.range (min (min upd r) ⌊day.availableHours / tpu⌋).toNat).map
      (fun (k : ℕ) => c + (k : ℤ)),
    max (1 / 2) ((Int.cast (min (min upd r) ⌊day.availableHours / tpu⌋) : ℚ) * tpu),
    0, false, false⟩, rfl, rfl, rfl, ?_⟩
  simp only [walkStudy, hr, if_false, hday]

/-- The distribution walk from cursor `c` with `r` units remaining assigns the
consecutive block `[c, c + k)` across its non-review assignments, for some
`k ≤ r`, decrementing the remaining counter by exactly `k`. -/
theorem walkStudy_units_spec (examId : ℕ) (tpu : ℚ) (upd : ℤ)
    (hupd : 1 ≤ upd) (htpu : 0 < tpu) :
    ∀ (idxs : List ℕ) (days : List StudyDay) (c r : ℤ),
      (∀ d ∈ days, 0 ≤ d.availableHours) → (∀ i ∈ idxs, i < days.length) → 0 ≤ r →
      ∃ k : ℕ,
        (k : ℤ) ≤ r ∧
        (walkStudy examId tpu upd idxs (days, c, r)).2.1 = c + k ∧
        (walkStudy examId tpu upd idxs (days, c, r)).2.2 = r - k ∧
        examUnitsM examId (walkStudy examId tpu upd idxs (days, c, r)).1
          = examUnitsM examId days
            + ↑((List.range k).map (fun (j : ℕ) => c + (j : ℤ))) := by
  intro idxs
  induction idxs with
  | nil =>
    intro days c r hH hval hr
    exact ⟨0, by omega, by simp [walkStudy], by simp [walkStudy], by simp [walkStudy]⟩
  | cons i rest ih =>
    intro days c r hH hval hr
    by_cases hr0 : r ≤ 0
    · simp only [walkStudy, hr0, if_true]
      exact ih days c r hH (fun j hj => hval j (List.mem_cons_of_mem i hj)) hr
    · have hiv : i < days.length := hval i (List.mem_cons_self i rest)
      have hday : days[i]? = some days[i] := List.getElem?_eq_getElem hiv
      obtain ⟨a, ha1, ha2, ha3, hstep⟩ :=
        walkStudy_cons_step_full examId tpu upd i rest days c r days[i] hr0 hday
      rw [hstep]
      have hfl : (0 : ℤ) ≤ ⌊days[i].availableHours / tpu⌋ :=
        Int.floor_nonneg.mpr (div_nonneg (hH days[i] (List.getElem_mem hiv)) htpu.le)
      have hm0 : 0 ≤ min (min upd r) ⌊days[i].availableHours / tpu⌋ := by omega
      have hmr : min (min upd r) ⌊days[i].availableHours / tpu⌋ ≤ r := by omega
      have hH' : ∀ d ∈ days.set i { days[i] with exams := days[i].exams ++ [a] },
          0 ≤ d.availableHours := by
        intro d hd
        rcases List.mem_or_eq_of_mem_set hd with hd' | rfl
        · exact hH d hd'
        · exact hH days[i] (List.getElem_mem hiv)
      have hval' : ∀ j ∈ rest,
          j < (days.set i { days[i] with exams := days[i].exams ++ [a] }).length := by
        intro j hj
        rw [List.length_set]
        exact hval j (List.mem_cons_of_mem i hj)
      obtain ⟨k, hk1, hk2, hk3, hk4⟩ := ih
        (days.set i { days[i] with exams := days[i].exams ++ [a] })
        (c + min (min upd r) ⌊days[i].availableHours / tpu⌋)
        (r - min (min upd r) ⌊days[i].availableHours / tpu⌋) hH' hval' (by omega)
      refine ⟨(min (min upd r) ⌊days[i].availableHours / tpu⌋).toNat + k, ?_, ?_, ?_, ?_⟩
      · push_cast
        omega
      · rw [hk2]
        push_cast
        omega
      · rw [hk3]
        push_cast
        omega
      · rw [hk4, examUnitsM_set_append examId days i days[i] a hday, if_pos ⟨ha1, ha2⟩, ha3]
        have hrange : List.range ((min (min upd r) ⌊days[i].availableHours / tpu⌋).toNat + k)
            = List.range (min (min upd r) ⌊days[i].availableHours / tpu⌋).toNat
              ++ (List.range k).map
                (fun x => (min (min upd r) ⌊days[i].availableHours / tpu⌋).toNat + x) :=
          List.range_add _ _
        rw [hrange, List.map_append, List.map_map]
        have hsecond : ((List.range k).map ((fun (j : ℕ) => c + (j : ℤ)) ∘
              (fun x => (min (min upd r) ⌊days[i].availableHours / tpu⌋).toNat + x)))
            = (List.range k).map (fun (j : ℕ) =>
                (c + min (min upd r) ⌊days[i].availableHours / tpu⌋) + (j : ℤ)) := by
          refine List.map_congr_left (fun x _ => ?_)
          simp only [Function.comp]
          push_cast
          omega
        rw [hsecond]
        rw [show (↑((List.range (min (min upd r) ⌊days[i].availableHours / tpu⌋).toNat).map
              (fun (j : ℕ) => c + (j : ℤ))
            ++ (List.range k).map (fun (j : ℕ) =>
                (c + min (min upd r) ⌊days[i].availableHours / tpu⌋) + (j : ℤ))) : Multiset ℤ)
          = (↑((List.range (min (min upd r) ⌊days[i].availableHours / tpu⌋).toNat).map
              (fun (j : ℕ) => c + (j : ℤ))) : Multiset ℤ)
            + ↑((List.range k).map (fun (j : ℕ) =>
                (c + min (min upd r) ⌊days[i].availableHours / tpu⌋) + (j : ℤ))) from rfl]
        abel

/-- C2: for an exam whose distribution walk ends with no remaining units (no
starvation), the unit numbers of its non-review assignments across the
resulting day list are exactly `{1..totalUnits}` with no duplicates — its
already-completed set being empty, since full regeneration either rebuilds an
exam from scratch or (in keep mode) skips exams with completed sessions. -/
theorem c2_unit_conservation (keep : Bool) (cs : List (ℤ × StudyDayExam)) (today : ℤ)
    (st : Settings) (days : List StudyDay) (exam : Exam)
    (ht : 0 ≤ exam.timePerUnit)
    (hH : ∀ d ∈ days, 0 ≤ d.availableHours)
    (hclean : examUnitsM exam.id days = 0)
    (hguard1 : ¬(exam.date - today ≤ 0))
    (hguard2 : (keep && cs.any (fun s => decide (s.2.examId = exam.id))) = false)
    (hstarve : (walkFor keep today st days exam).2.2 = 0) :
    examUnitsM exam.id (distributeExam keep cs today st days exam)
        = ↑((List.range (studyUnitsOf exam)).map (fun (j : ℕ) => (1 : ℤ) + (j : ℤ)))
    ∧ (examUnitsM exam.id (distributeExam keep cs today st days exam)).toFinset
        = Finset.Icc 1 (studyUnitsOf exam : ℤ)
    ∧ (examUnitsM exam.id (distributeExam keep cs today st days exam)).Nodup := by
  have htpu : 0 < timePerUnitOf exam := timePerUnitOf_pos exam ht
  have hupd : 1 ≤ unitsPerDayOf (studyUnitsOf exam)
      (studyIdxsFor keep today st days exam).length := le_max_left 1 _
  have hval : ∀ i ∈ studyIdxsFor keep today st days exam, i < days.length :=
    mem_studyIdxsFor_lt keep today st days exam
  obtain ⟨k, hk1, hk2, hk3, hk4⟩ := walkStudy_units_spec exam.id (timePerUnitOf exam)
    (unitsPerDayOf (studyUnitsOf exam) (studyIdxsFor keep today st days exam).length)
    hupd htpu (studyIdxsFor keep today st days exam) days 1 (studyUnitsOf exam : ℤ)
    hH hval (Int.natCast_nonneg _)
  have hwalk : walkFor keep today st days exam
      = walkStudy exam.id (timePerUnitOf exam)
          (unitsPerDayOf (studyUnitsOf exam) (studyIdxsFor keep today st days exam).length)
          (studyIdxsFor keep today st days exam) (days, 1, (studyUnitsOf exam : ℤ)) := rfl
  have hkN : k = studyUnitsOf exam := by
    have h0 : (studyUnitsOf exam : ℤ) - (k : ℤ) = 0 := by
      rw [← hk3, ← hwalk]
      exact hstarve
    omega
  have hdist : distributeExam keep cs today st days exam
      = appendReviews exam.id (reviewIdxsFor keep today st days exam)
          (walkFor keep today st days exam).1 := by
    unfold distributeExam
    rw [if_neg hguard1, if_neg (by simp [hguard2])]
  have hmain : examUnitsM exam.id (distributeExam keep cs today st days exam)
      = ↑((List.range (studyUnitsOf exam)).map (fun (j : ℕ) => (1 : ℤ) + (j : ℤ))) := by
    rw [hdist, appendReviews_examUnitsM, hwalk, hk4, hclean, hkN, zero_add]
  have hlistNodup : ((List.range (studyUnitsOf exam)).map
      (fun (j : ℕ) => (1 : ℤ) + (j : ℤ))).Nodup := by
    refine List.Nodup.map ?_ (List.nodup_range _)
    intro x y hxy
    dsimp only at hxy
    omega
  refine ⟨hmain, ?_, ?_⟩
  · rw [hmain]
    show ((List.range (studyUnitsOf exam)).map
      (fun (j : ℕ) => (1 : ℤ) + (j : ℤ))).toFinset = Finset.Icc 1 (studyUnitsOf exam : ℤ)
    ext x
    simp only [List.mem_toFinset, List.mem_map, List.mem_range, Finset.mem_Icc]
    constructor
    · rintro ⟨j, hj, rfl⟩
      omega
    · rintro ⟨h1, h2⟩
      exact ⟨(x - 1).toNat, by omega, by omega⟩
  · rw [hmain]
    exact hlistNodup

unseal Rat.add Rat.mul Rat.inv Rat.sub Rat.ofScientific in
/-- C2 witness: `examTwoDays` (5 chapters) over its four-day calendar — the
walk ends with zero remaining units and the assigned units are `{1..5}`. -/
theorem c2_unit_conservation_witness :
    ((0 : ℚ) ≤ examTwoDays.timePerUnit ∧
      (∀ d ∈ calFour, (0 : ℚ) ≤ d.availableHours) ∧
      examUnitsM examTwoDays.id calFour = 0 ∧
      (¬(examTwoDays.date - 0 ≤ 0)) ∧
      ((false : Bool) && ([] : List (ℤ × StudyDayExam)).any
        (fun s => decide (s.2.examId = examTwoDays.id))) = false ∧
      (walkFor false 0 settingsDefault calFour examTwoDays).2.2 = 0) ∧
    (examUnitsM examTwoDays.id (distributeExam false [] 0 settingsDefault calFour examTwoDays)
        = ↑((List.range (studyUnitsOf examTwoDays)).map (fun (j : ℕ) => (1 : ℤ) + (j : ℤ)))
    ∧ (examUnitsM examTwoDays.id
          (distributeExam false [] 0 settingsDefault calFour examTwoDays)).toFinset
        = Finset.Icc 1 (studyUnitsOf examTwoDays : ℤ)
    ∧ (examUnitsM examTwoDays.id
        (distributeExam false [] 0 settingsDefault calFour examTwoDays)).Nodup) := by
  refine ⟨⟨by decide, by decide, by decide, by decide, rfl, by decide⟩, ?_⟩
  exact c2_unit_conservation false [] 0 settingsDefault calFour examTwoDays
    (by decide) (by decide) (by decide) (by decide) rfl (by decide)

end StudySync
